import Mathlib

set_option autoImplicit false

namespace PromptManagerSpec

/-!
Shallow embedding of `tosin2013/prompt-manager`.

Text is modelled as `List Char`; Python strings map to char lists via `s2l`.
The memory-bank section editor is translated from
`src/prompt_manager/__init__.py`, `MemoryBank.update_context` (lines 197-244)
and `MemoryBank.initialize` (lines 185-195).  The task store is translated
from `src/prompt_manager/manager.py` (`PromptManager.add_task`, `get_task`,
`update_task_status`) together with the `Task` model of
`src/prompt_manager/models.py` (the revision whose field names
`prompt_template`, `created_at`, `updated_at` match `manager.py`).  The CLI
commands are translated from `src/prompt_manager/cli/base_commands.py`.
Wall-clock time is modelled by an explicit `now : Nat` parameter.
-/

/-- Characters of a Lean string literal; used to write concrete Python strings. -/
def s2l (s : String) : List Char := s.data

/-- Python `str.isspace` on the ASCII whitespace characters. -/
def isPySpace (c : Char) : Bool :=
  c = ' ' || c = '\t' || c = '\n' || c = '\r' || c = '\x0b' || c = '\x0c'

/-- Python `str.rstrip()`: drop trailing whitespace. -/
def rstrip (s : List Char) : List Char :=
  (s.reverse.dropWhile isPySpace).reverse

/-- Python `haystack.find(pat)`: index of the earliest occurrence of `pat`
as a contiguous substring, `none` where Python returns `-1`. -/
def pyFind (pat : List Char) : List Char → Option Nat
  | [] => if pat = [] then some 0 else none
  | c :: rest =>
    if pat.isPrefixOf (c :: rest) then some 0
    else (pyFind pat rest).map (· + 1)

/-- Python `haystack.find(pat, start)`. -/
def pyFindFrom (pat s : List Char) (start : Nat) : Option Nat :=
  (pyFind pat (s.drop start)).map (· + start)

/-- Boolean substring test. -/
def hasSub (pat s : List Char) : Bool := (pyFind pat s).isSome

/-- Occurrence of `pat` in `s` at index `i`. -/
def OccAt (pat s : List Char) (i : Nat) : Prop := pat <+: s.drop i

/-- Update mode of `MemoryBank.update_context`; the Python strings
`"append"` and `"replace"` (any other string raises `ValueError`). -/
inductive UpdateMode
  | append
  | replace
deriving DecidableEq

/-- The header text `"## " + section` searched for by `update_context`. -/
def sectionHeader (sec : List Char) : List Char := '#' :: '#' :: ' ' :: sec

/-- The next-section search pattern `"\n##"`. -/
def nlHH : List Char := ['\n', '#', '#']

/-- The section-splice computation of `MemoryBank.update_context`
(`src/prompt_manager/__init__.py` lines 213-237): from the current file text,
the section name, the new content and the mode, produce the new file text.
`none`-branch: section absent, append a fresh block to the rstripped file.
`some`-branch: the block runs from the header to the next `"\n##"` (or EOF);
append keeps the rstripped old block and adds the content on a new line,
replace substitutes `"## <sec>\n<content>"` for the whole block. -/
def updateContext (cur sec content : List Char) (mode : UpdateMode) : List Char :=
  let header := sectionHeader sec
  match pyFind header cur with
  | none => rstrip cur ++ '\n' :: '\n' :: header ++ '\n' :: content ++ ['\n']
  | some s =>
    let next := (pyFindFrom nlHH cur (s + 1)).getD cur.length
    match mode with
    | .append => cur.take s ++ rstrip ((cur.take next).drop s) ++ '\n' :: content ++ cur.drop next
    | .replace => cur.take s ++ header ++ '\n' :: content ++ cur.drop next

/-- Split a text into its lines (separator `'\n'`, Python `str.split("\n")`). -/
def splitLines : List Char → List (List Char)
  | [] => [[]]
  | c :: rest =>
    let r := splitLines rest
    if c = '\n' then [] :: r
    else (c :: r.headD []) :: r.tail

/-- Inverse of `splitLines`: join lines with `'\n'`. -/
def joinLines : List (List Char) → List Char
  | [] => []
  | [l] => l
  | l :: l' :: ls => l ++ '\n' :: joinLines (l' :: ls)

/-- Number of lines of `content` that are exactly the header line `"## " ++ sec`;
the number of `## <sec>` blocks in the sense of the spec (a block is introduced
by its header line). -/
def headerCount (content sec : List Char) : Nat :=
  (splitLines content).count (sectionHeader sec)

/-- Lines of the block introduced by the first line equal to `hdr`: the
following lines up to (excluding) the next line that starts with `"##"`. -/
def sectionLines (ls : List (List Char)) (hdr : List Char) : Option (List (List Char)) :=
  match ls with
  | [] => none
  | l :: rest =>
    if l = hdr then some (rest.takeWhile (fun l2 => !(['#', '#'].isPrefixOf l2)))
    else sectionLines rest hdr

/-- Content of the `## <sec>` block of `content`, per the spec reading: the
text between the header line and the next line beginning with `"##"` (or EOF),
`none` when no `## <sec>` header line exists. -/
def sectionBody (content sec : List Char) : Option (List Char) :=
  (sectionLines (splitLines content) (sectionHeader sec)).map joinLines

/-! State-level model of `MemoryBank` (src/prompt_manager/__init__.py 166-265). -/

/-- Directory contents: file name to file text, in creation order. -/
abbrev FileMap : Type := List (List Char × List Char)

/-- Read a file of the directory. -/
def lookupFile : FileMap → List Char → Option (List Char)
  | [], _ => none
  | (k, v) :: rest, name => if k = name then some v else lookupFile rest name

/-- Write a file: overwrite in place, or create at the end. -/
def writeFile : FileMap → List Char → List Char → FileMap
  | [], name, content => [(name, content)]
  | (k, v) :: rest, name, content =>
    if k = name then (k, content) :: rest else (k, v) :: writeFile rest name content

/-- `MemoryBank` state: the docs directory, the active flag and the token
counter (src/prompt_manager/__init__.py lines 169-183). -/
structure MemoryBank where
  files : FileMap
  isActive : Bool
  currentTokens : Int
  maxTokens : Int

/-- The five required file names (lines 177-183). -/
def requiredFiles : List (List Char) :=
  [s2l "productContext.md", s2l "activeContext.md", s2l "systemPatterns.md",
   s2l "techContext.md", s2l "progress.md"]

/-- Content written into a fresh required file: `f"# {file[:-3]}\n\n"`. -/
def initHeader (name : List Char) : List Char :=
  '#' :: ' ' :: (name.take (name.length - 3) ++ ['\n', '\n'])

/-- One iteration of the creation loop of `MemoryBank.initialize`: create the
file with its header if it does not exist, else leave it alone (lines 188-194). -/
def initStep (fs : FileMap) (name : List Char) : FileMap :=
  if (lookupFile fs name).isSome then fs else writeFile fs name (initHeader name)

/-- `MemoryBank.initialize` (lines 185-195): create every missing required
file with its header and activate the bank. -/
def mbInit (mb : MemoryBank) : MemoryBank :=
  { mb with files := requiredFiles.foldl initStep mb.files, isActive := true }

/-- `MemoryBank.update_context` (lines 197-244) at the state level: return
unchanged when the bank is inactive; `ValueError` when the file name is not a
file of the directory (the `glob("*.md")` membership test — every file of the
model directory is an `.md` file); otherwise splice the text via
`updateContext`, add the signed length difference to the token counter
(`increment_tokens(len(new) - len(old))`) and write the file back. -/
def mbUpdateContext (mb : MemoryBank) (fileName sec content : List Char)
    (mode : UpdateMode) : Except (List Char) MemoryBank :=
  if mb.isActive = false then .ok mb
  else
    match lookupFile mb.files fileName with
    | none => .error (s2l "Invalid file name: " ++ fileName)
    | some cur =>
      let newContent := updateContext cur sec content mode
      .ok { mb with
            files := writeFile mb.files fileName newContent,
            currentTokens := mb.currentTokens +
              ((newContent.length : Int) - (cur.length : Int)) }

/-! Repeated appends to one section. -/

/-- A benign content line: nonempty, free of newlines, not opening with
`"##"`, not ending in whitespace. -/
def benignLine (c : List Char) : Bool :=
  !c.isEmpty && c.all (fun ch => ch != '\n') && !(['#', '#'].isPrefixOf c) &&
    (match c.getLast? with
     | some lc => !isPySpace lc
     | none => false)

/-- Invariant kept by repeated appends: a preamble ending in a newline and
free of header copies, then the `## <sec>` block, no line of whose interior
opens with `"##"`, the interior empty or ending in non-whitespace. -/
def AppendInv (sec cur : List Char) : Prop :=
  ∃ pre body, cur = pre ++ (sectionHeader sec ++ ('\n' :: body)) ∧
    (pre = [] ∨ pre.getLast? = some '\n') ∧
    hasSub (sectionHeader sec) pre = false ∧
    (∀ l ∈ splitLines body, ¬ ['#', '#'] <+: l) ∧
    (body = [] ∨ ∃ lc, body.getLast? = some lc ∧ isPySpace lc = false)

/-- Two appends to section `Foo` on a freshly initialized memory-bank file. -/
def fooTwice (f : List Char) : List Char :=
  updateContext (updateContext (initHeader f) (s2l "Foo") (s2l "bar") .append)
    (s2l "Foo") (s2l "baz") .append

/-- A further sequence of appends to section `sec`. -/
def appendAll (sec cur : List Char) (cs : List (List Char)) : List Char :=
  cs.foldl (fun cc c => updateContext cc sec c .append) cur

/-! Task model (src/prompt_manager/models.py) and task store
(src/prompt_manager/manager.py). -/

/-- `TaskStatus` (models.py lines 10-15). -/
inductive TaskStatus
  | pending
  | inProgress
  | done
  | failed
deriving DecidableEq

/-- The enum member values. -/
def TaskStatus.value : TaskStatus → List Char
  | .pending => s2l "pending"
  | .inProgress => s2l "in_progress"
  | .done => s2l "done"
  | .failed => s2l "failed"

/-- `TaskStatus(s)`: enum lookup by value, `none` for `ValueError`. -/
def taskStatusOfValue (str : List Char) : Option TaskStatus :=
  if str = TaskStatus.value .pending then some .pending
  else if str = TaskStatus.value .inProgress then some .inProgress
  else if str = TaskStatus.value .done then some .done
  else if str = TaskStatus.value .failed then some .failed
  else none

/-- Python `str.lower()` on ASCII. -/
def pyLower (str : List Char) : List Char := str.map Char.toLower

/-- The abstract clock reading rendered as decimal digits; stands for the
`strftime` timestamp text of `models.py` line 53. -/
def renderTime (t : Nat) : List Char := Nat.toDigits 10 t

/-- `Task` (models.py lines 18-47): the fields `Task.__init__` assigns;
`created_at` and `updated_at` are abstract clock readings. -/
structure Task where
  title : List Char
  description : List Char
  priority : List Char
  status : TaskStatus
  promptTemplate : List Char
  notes : List (List Char)
  createdAt : Nat
  updatedAt : Nat
deriving DecidableEq

/-- `Task.update_status` (models.py lines 49-55): set the status, bump
`updated_at` to the current time, and append the note prefixed with the
timestamp and `" - "` when the note is neither `None` nor empty. -/
def Task.updateStatus (t : Task) (status : TaskStatus) (note : Option (List Char))
    (now : Nat) : Task :=
  { t with
    status := status,
    updatedAt := now,
    notes := match note with
      | none => t.notes
      | some n =>
        if n = [] then t.notes
        else t.notes ++ [renderTime now ++ (' ' :: '-' :: ' ' :: n)] }

/-- The task store `self.tasks`: a Python dict from title to task, in
insertion order. -/
abbrev Store : Type := List (List Char × Task)

/-- Dict lookup `self.tasks[title]`. -/
def storeLookup : Store → List Char → Option Task
  | [], _ => none
  | (k, v) :: rest, title => if k = title then some v else storeLookup rest title

/-- Dict assignment `self.tasks[title] = task`: overwrite in place or append. -/
def storeInsert : Store → List Char → Task → Store
  | [], title, task => [(title, task)]
  | (k, v) :: rest, title, task =>
    if k = title then (k, task) :: rest else (k, v) :: storeInsert rest title task

/-- `list(self.tasks.values())`. -/
def storeValues (ts : Store) : List Task := ts.map (fun p => p.2)

/-- `PromptManager.add_task` (manager.py lines 99-131): reject an existing
title, then reject a priority outside `["low", "medium", "high"]`, then
insert a fresh pending task (no further validation happens on this path). -/
def addTask (ts : Store) (title description : List Char)
    (template : Option (List Char)) (priority : List Char) (now : Nat) :
    Except (List Char) Store :=
  if (storeLookup ts title).isSome then
    .error (s2l "Task with title '" ++ title ++ s2l "' already exists")
  else if ¬ (priority = s2l "low" ∨ priority = s2l "medium" ∨
      priority = s2l "high") then
    .error (s2l "Invalid priority '" ++ priority ++
      s2l "'. Must be one of: low, medium, high")
  else
    .ok (storeInsert ts title
      { title := title, description := description, priority := priority,
        status := .pending, promptTemplate := template.getD [], notes := [],
        createdAt := now, updatedAt := now })

/-- Python list indexing `xs[i]`: nonnegative indices from the front,
negative indices from the back, `none` for `IndexError`. -/
def pyListGet {α : Type} (l : List α) (i : Int) : Option α :=
  if 0 ≤ i then l[i.toNat]?
  else if i.natAbs ≤ l.length then l[l.length - i.natAbs]?
  else none

/-- `PromptManager.get_task` (manager.py lines 133-147): an integer indexes
`list(self.tasks.values())`, an `IndexError` re-raised as `KeyError`; a
string title keys the dict, `KeyError` when absent. -/
def getTask (ts : Store) (tid : Int ⊕ List Char) : Except (List Char) Task :=
  match tid with
  | .inl i =>
    match pyListGet (storeValues ts) i with
    | some t => .ok t
    | none => .error (s2l "No task found at index")
  | .inr title =>
    match storeLookup ts title with
    | some t => .ok t
    | none => .error title

/-- The status-argument conversion of `update_task_status` (manager.py lines
199-203): an enum member passes through, a string is lowercased and looked up
by value, an unknown value raises `ValueError`. -/
def statusOfInput (si : TaskStatus ⊕ List Char) : Except (List Char) TaskStatus :=
  match si with
  | .inl st => .ok st
  | .inr str =>
    match taskStatusOfValue (pyLower str) with
    | some st => .ok st
    | none => .error (s2l "Invalid status '" ++ str ++ s2l "'")

/-- Write-back of the in-place task mutation: by key for a title id, by the
keyed entry at the Python index for an integer id. -/
def storeWrite (ts : Store) (tid : Int ⊕ List Char) (t : Task) : Store :=
  match tid with
  | .inr title => storeInsert ts title t
  | .inl i =>
    match pyListGet ts i with
    | some p => storeInsert ts p.1 t
    | none => ts

/-- `PromptManager.update_task_status` (manager.py lines 181-207): look the
task up, convert the status argument, mutate it via `Task.update_status`,
persist the store. -/
def updateTaskStatus (ts : Store) (tid : Int ⊕ List Char)
    (si : TaskStatus ⊕ List Char) (note : Option (List Char)) (now : Nat) :
    Except (List Char) Store :=
  match getTask ts tid with
  | .error e => .error e
  | .ok t =>
    match statusOfInput si with
    | .error e => .error e
    | .ok st => .ok (storeWrite ts tid (t.updateStatus st note now))

/-! CLI commands (src/prompt_manager/cli/base_commands.py). -/

/-- Observable outcome of one CLI invocation: process exit code and the lines
printed on stderr. -/
structure CmdOutcome where
  exitCode : Nat
  stderrLines : List (List Char)
deriving DecidableEq

/-- Dependency view of the CLI task store: title to dependency-title list.
`add-dependency` reads and writes `task.dependencies` only; the entries stand
for `BoltTask`s, the only task variant of src/prompt_manager/__init__.py that
has a `dependencies` attribute. -/
abbrev DepStore : Type := List (List Char × List (List Char))

def depLookup : DepStore → List Char → Option (List (List Char))
  | [], _ => none
  | (k, v) :: rest, title => if k = title then some v else depLookup rest title

/-- The cycle test of `add_dependency` (cli/base_commands.py line 299):
`dependency_title in task.dependencies or task_title in dependency.dependencies`
— it inspects the two direct lists only. -/
def circularCheck (tdeps ddeps : List (List Char)) (t d : List Char) : Bool :=
  tdeps.contains d || ddeps.contains t

/-- `add_dependency` (cli/base_commands.py lines 282-309).  `get_task` raises
`KeyError` for a missing title; the direct-cycle test raises
`ValueError("Circular dependency detected")`; otherwise the in-memory list
append happens and the following `manager._save_tasks()` call raises
`AttributeError`, because the exported `PromptManager`
(src/prompt_manager/__init__.py line 492) defines `save_tasks` only.  The
`except` clause prints every raised error on stderr and calls `sys.exit(1)`;
the persisted store is never modified, and the unreachable success `echo` is
never printed. -/
def addDependencyCmd (ts : DepStore) (t d : List Char) : CmdOutcome :=
  match depLookup ts t, depLookup ts d with
  | none, _ =>
    { exitCode := 1,
      stderrLines := [s2l "Error adding dependency: 'Task " ++ t ++
        s2l " not found'"] }
  | some _, none =>
    { exitCode := 1,
      stderrLines := [s2l "Error adding dependency: 'Task " ++ d ++
        s2l " not found'"] }
  | some tdeps, some ddeps =>
    if circularCheck tdeps ddeps t d then
      { exitCode := 1,
        stderrLines :=
          [s2l "Error adding dependency: Circular dependency detected"] }
    else
      { exitCode := 1,
        stderrLines := [s2l
          "Error adding dependency: 'PromptManager' object has no attribute '_save_tasks'"] }

/-- `generate_bolt_tasks` (cli/base_commands.py lines 236-280) at the outcome
level, parameterised by the wrapped operation's result: on success the tasks
are echoed and the callback returns `True`; on any raised error the one-line
message goes to stderr and the callback returns `False`.  Click ignores the
callback's return value, so the process exits 0 on both paths. -/
def generateBoltTasksCmd (opResult : Except (List Char) (List (List Char))) :
    CmdOutcome :=
  match opResult with
  | .ok _ => { exitCode := 0, stderrLines := [] }
  | .error e =>
    { exitCode := 0, stderrLines := [s2l "Error generating bolt tasks: " ++ e] }

/-- C1 witness state: an active bank holding one well-formed file. -/
def c1mb : MemoryBank :=
  { files := [(s2l "activeContext.md", s2l "# activeContext\n\n## Foo\nold\n\n## Bar\nkeep\n")],
    isActive := true, currentTokens := 0, maxTokens := 2000000 }

/-- C5 witness state: an inactive bank with one populated required file. -/
def c5mb : MemoryBank :=
  { files := [(s2l "progress.md", s2l "# progress\n\nkeep")],
    isActive := false, currentTokens := 5, maxTokens := 100 }

/-- Sample task used by concrete store computations. -/
def sampleTask : Task :=
  { title := s2l "A", description := s2l "d", priority := s2l "medium",
    status := .pending, promptTemplate := [], notes := [s2l "n0"],
    createdAt := 3, updatedAt := 3 }

/-! Occurrence theory for `pyFind`. -/

theorem splitLines_ne_nil (s : List Char) : splitLines s ≠ [] := by
  cases s with
  | nil => simp [splitLines]
  | cons c rest => simp only [splitLines]; split <;> simp

theorem occAt_cons {pat rest : List Char} {c : Char} {i : Nat} :
    OccAt pat (c :: rest) (i + 1) ↔ OccAt pat rest i := by
  simp [OccAt]

theorem occAt_zero {pat s : List Char} : OccAt pat s 0 ↔ pat <+: s := by
  simp [OccAt]

theorem pyFind_some_occ {pat s : List Char} {k : Nat} (h : pyFind pat s = some k) :
    OccAt pat s k := by
  induction s generalizing k with
  | nil =>
    simp only [pyFind] at h
    split at h
    · cases h
      simp_all [OccAt]
    · cases h
  | cons c rest ih =>
    simp only [pyFind] at h
    split at h
    · cases h
      rw [occAt_zero]
      exact List.isPrefixOf_iff_prefix.mp (by assumption)
    · rcases Option.map_eq_some'.mp h with ⟨k', hk', rfl⟩
      exact occAt_cons.mpr (ih hk')

theorem pyFind_of_occ_min {pat s : List Char} {k : Nat} (hne : pat ≠ [])
    (hocc : OccAt pat s k) (hmin : ∀ i, i < k → ¬ OccAt pat s i) :
    pyFind pat s = some k := by
  induction s generalizing k with
  | nil =>
    exact absurd (List.prefix_nil.mp (by simpa [OccAt] using hocc)) hne
  | cons c rest ih =>
    cases k with
    | zero =>
      rw [occAt_zero] at hocc
      simp [pyFind, List.isPrefixOf_iff_prefix.mpr hocc]
    | succ k' =>
      have h0 : ¬ pat <+: (c :: rest) := by
        have := hmin 0 (Nat.succ_pos _)
        rwa [occAt_zero] at this
      have hpp : pat.isPrefixOf (c :: rest) = false := by
        by_contra hb
        exact h0 (List.isPrefixOf_iff_prefix.mp (by simpa using hb))
      have hrec : pyFind pat rest = some k' := by
        refine ih (occAt_cons.mp hocc) ?_
        intro i hi hOi
        exact hmin (i + 1) (by omega) (occAt_cons.mpr hOi)
      simp [pyFind, hpp, hrec]

theorem pyFind_none_of_noOcc {pat s : List Char} (hne : pat ≠ [])
    (h : ∀ i, ¬ OccAt pat s i) : pyFind pat s = none := by
  induction s with
  | nil => simp [pyFind, hne]
  | cons c rest ih =>
    have h0 : pat.isPrefixOf (c :: rest) = false := by
      by_contra hb
      exact h 0 (occAt_zero.mpr (List.isPrefixOf_iff_prefix.mp (by simpa using hb)))
    have : pyFind pat rest = none := ih fun i hi => h (i + 1) (occAt_cons.mpr hi)
    simp [pyFind, h0, this]

instance {pat s : List Char} : DecidablePred (OccAt pat s) := fun i =>
  decidable_of_iff (pat.isPrefixOf (s.drop i) = true)
    (by unfold OccAt; exact List.isPrefixOf_iff_prefix)

theorem hasSub_false_iff {pat s : List Char} (hne : pat ≠ []) :
    hasSub pat s = false ↔ ∀ i, ¬ OccAt pat s i := by
  constructor
  · intro h i hOi
    have hex : ∃ j, OccAt pat s j := ⟨i, hOi⟩
    have := pyFind_of_occ_min hne (Nat.find_spec hex) fun j hj => Nat.find_min hex hj
    simp [hasSub, this] at h
  · intro h
    simp [hasSub, pyFind_none_of_noOcc hne h]

theorem occAt_of_hasSub {pat s : List Char} (h : hasSub pat s = true) :
    ∃ i, OccAt pat s i := by
  rcases ho : pyFind pat s with _ | k
  · simp [hasSub, ho] at h
  · exact ⟨k, pyFind_some_occ ho⟩

theorem hasSub_of_occAt {pat s : List Char} {i : Nat} (hne : pat ≠ [])
    (h : OccAt pat s i) : hasSub pat s = true := by
  by_contra hb
  exact (hasSub_false_iff hne).mp (by simpa using hb) i h

theorem occAt_getElem {pat s : List Char} {i m : Nat} (h : OccAt pat s i)
    (hm : m < pat.length) : s[i + m]? = pat[m]? := by
  rcases h with ⟨t, ht⟩
  rw [← List.getElem?_drop, ← ht, List.getElem?_append]
  simp [hm]

theorem occAt_in_left {pat A B : List Char} {i : Nat} (h : OccAt pat (A ++ B) i)
    (hle : i + pat.length ≤ A.length) : OccAt pat A i := by
  have hi : i ≤ A.length := by omega
  unfold OccAt at h ⊢
  rw [List.drop_append_of_le_length hi] at h
  have hlen : pat.length ≤ (A.drop i).length := by
    rw [List.length_drop]; omega
  rw [List.prefix_iff_eq_take] at h
  rw [List.take_append_of_le_length hlen] at h
  rw [h]
  exact List.take_prefix _ _

theorem occAt_append_right {pat A B : List Char} {i : Nat} (h : OccAt pat B i) :
    OccAt pat (A ++ B) (A.length + i) := by
  unfold OccAt at h ⊢
  rwa [List.drop_append]

theorem occAt_extend {pat A B : List Char} {i : Nat} (h : OccAt pat A i) :
    OccAt pat (A ++ B) i := by
  unfold OccAt at h ⊢
  rcases le_or_lt i A.length with hle | hlt
  · rw [List.drop_append_of_le_length hle]
    exact h.trans (List.prefix_append _ _)
  · rw [List.drop_eq_nil_of_le (by omega)] at h
    have : pat = [] := List.prefix_nil.mp h
    simp [this]

theorem hasSub_cons {pat rest : List Char} {c : Char} (hne : pat ≠ [])
    (h : hasSub pat rest = true) : hasSub pat (c :: rest) = true := by
  rcases occAt_of_hasSub h with ⟨i, hi⟩
  exact hasSub_of_occAt hne (occAt_cons.mpr hi)

/-- Earliest occurrence of `pat` in `A ++ B`, when `pat` heads `B`, does not
occur in `A`, and `B`'s first character appears nowhere in `pat.tail` (so no
occurrence can straddle the boundary). Used for the `"\n##"` search, whose
tail `"##"` never contains the `'\n'` that heads the next-section suffix. -/
theorem pyFind_append_boundary {pat A B : List Char} {b0 : Char} (hne : pat ≠ [])
    (hA : hasSub pat A = false) (hB : pat <+: B) (hb : B[0]? = some b0)
    (hnb : b0 ∉ pat.tail) : pyFind pat (A ++ B) = some A.length := by
  apply pyFind_of_occ_min hne
  · exact occAt_append_right (A := A) (occAt_zero.mpr hB)
  · intro i hi hOi
    rcases le_or_lt (i + pat.length) A.length with hle | hgt
    · exact (hasSub_false_iff hne).mp hA i (occAt_in_left hOi hle)
    · set m := A.length - i with hm
      have hm1 : 1 ≤ m := by omega
      have hm2 : m < pat.length := by omega
      have hwin : (A ++ B)[i + m]? = pat[m]? := occAt_getElem hOi hm2
      have him : i + m = A.length + 0 := by omega
      rw [him, List.getElem?_append_right (Nat.le_add_right _ _)] at hwin
      simp only [Nat.add_sub_cancel_left] at hwin
      rw [hb] at hwin
      rcases pat with _ | ⟨p0, pt⟩
      · exact hne rfl
      · have hwin' : (p0 :: pt)[m]? = some b0 := hwin.symm
        rcases m with _ | m'
        · omega
        · rw [List.getElem?_cons_succ] at hwin'
          exact hnb (List.getElem?_mem hwin')

/-- Earliest occurrence of `pat` in `A ++ B`, when `pat` heads `B`, does not
occur in `A`, and `A` ends in a character that appears nowhere in `pat` (so no
occurrence can straddle the boundary). Used for the `"## <sec>"` search on a
file whose preamble ends in a newline, which a section header never contains. -/
theorem pyFind_append_newline {pat A B : List Char} {c : Char} (hne : pat ≠ [])
    (hc : c ∉ pat) (hA : A = [] ∨ A.getLast? = some c) (hAsub : hasSub pat A = false)
    (hB : pat <+: B) : pyFind pat (A ++ B) = some A.length := by
  apply pyFind_of_occ_min hne
  · exact occAt_append_right (A := A) (occAt_zero.mpr hB)
  · intro i hi hOi
    rcases hA with rfl | hlast
    · simp at hi
    · rcases le_or_lt (i + pat.length) A.length with hle | hgt
      · exact (hasSub_false_iff hne).mp hAsub i (occAt_in_left hOi hle)
      · have hAne : A ≠ [] := by intro h; subst h; simp at hi
        set m := A.length - 1 - i with hm
        have hm2 : m < pat.length := by omega
        have hwin : (A ++ B)[i + m]? = pat[m]? := occAt_getElem hOi hm2
        have him : i + m = A.length - 1 := by omega
        have hlt : A.length - 1 < A.length := by
          have : 0 < A.length := List.length_pos.mpr hAne
          omega
        rw [him, List.getElem?_append, if_pos hlt, ← List.getLast?_eq_getElem? A,
          hlast] at hwin
        exact hc (List.getElem?_mem hwin.symm)

/-- Shift an earliest occurrence past a left part none of whose characters
matches the head of the pattern (so no occurrence can start inside it). -/
theorem pyFind_cons {pat rest : List Char} {c : Char} :
    pyFind pat (c :: rest) =
      if pat.isPrefixOf (c :: rest) then some 0 else (pyFind pat rest).map (· + 1) := rfl

theorem pyFind_append_shift {p0 : Char} {pt A B : List Char} (hA : p0 ∉ A) :
    pyFind (p0 :: pt) (A ++ B) = (pyFind (p0 :: pt) B).map (· + A.length) := by
  induction A with
  | nil =>
    simp only [List.nil_append, List.length_nil]
    cases pyFind (p0 :: pt) B <;> simp
  | cons a A' ih =>
    have hne : a ≠ p0 := fun h => hA (by simp [h])
    have hpre : (p0 :: pt).isPrefixOf (a :: (A' ++ B)) = false := by
      simp [List.isPrefixOf, Ne.symm hne]
    have hA' : p0 ∉ A' := fun h => hA (List.mem_cons_of_mem _ h)
    rw [List.cons_append, pyFind_cons, hpre]
    simp only [Bool.false_eq_true, if_false, ih hA']
    rcases pyFind (p0 :: pt) B with _ | k
    · simp
    · simp only [Option.map_some', List.length_cons, Option.some.injEq]
      omega

/-! Line structure: `splitLines`, `joinLines`, `takeWhile`, `rstrip`. -/

theorem splitLines_cons_nl (rest : List Char) :
    splitLines ('\n' :: rest) = [] :: splitLines rest := by
  simp [splitLines]

theorem splitLines_cons_ne {c : Char} (rest : List Char) (h : c ≠ '\n') :
    splitLines (c :: rest) =
      (c :: (splitLines rest).headD []) :: (splitLines rest).tail := by
  simp [splitLines, h]

theorem headD_mem {α : Type} {d : α} {ls : List α} (h : ls ≠ []) : ls.headD d ∈ ls := by
  cases ls with
  | nil => exact absurd rfl h
  | cons x xs => simp

theorem splitLines_append_nl (A B : List Char) :
    splitLines (A ++ '\n' :: B) = splitLines A ++ splitLines B := by
  induction A with
  | nil => simp [splitLines_cons_nl, splitLines]
  | cons c A' ih =>
    by_cases hc : c = '\n'
    · subst hc
      simp [splitLines_cons_nl, ih]
    · rcases hA' : splitLines A' with _ | ⟨x, xs⟩
      · exact absurd hA' (splitLines_ne_nil A')
      · rw [List.cons_append, splitLines_cons_ne _ hc, splitLines_cons_ne _ hc, ih, hA']
        simp

theorem splitLines_no_nl {A : List Char} (h : '\n' ∉ A) : splitLines A = [A] := by
  induction A with
  | nil => rfl
  | cons c A' ih =>
    have hc : c ≠ '\n' := fun hh => h (by simp [hh])
    have hA' : '\n' ∉ A' := fun hh => h (List.mem_cons_of_mem _ hh)
    rw [splitLines_cons_ne _ hc, ih hA']
    simp

theorem joinLines_splitLines (A : List Char) : joinLines (splitLines A) = A := by
  induction A with
  | nil => rfl
  | cons c rest ih =>
    rcases hr : splitLines rest with _ | ⟨x, xs⟩
    · exact absurd hr (splitLines_ne_nil rest)
    · by_cases hc : c = '\n'
      · subst hc
        rw [splitLines_cons_nl, hr]
        rw [hr] at ih
        show '\n' :: joinLines (x :: xs) = '\n' :: rest
        rw [show joinLines (x :: xs) = rest from ih]
      · rw [splitLines_cons_ne _ hc, hr]
        rw [hr] at ih
        cases xs with
        | nil => simpa [joinLines] using congrArg (c :: ·) ih
        | cons x' xs' =>
          show (c :: x) ++ '\n' :: joinLines (x' :: xs') = c :: rest
          rw [List.cons_append]
          exact congrArg (c :: ·) ih

theorem headLine_pfx (A : List Char) : (splitLines A).headD [] <+: A := by
  induction A with
  | nil => simp [splitLines]
  | cons c rest ih =>
    by_cases hc : c = '\n'
    · subst hc
      simp [splitLines_cons_nl]
    · rw [splitLines_cons_ne _ hc]
      simp only [List.headD_cons]
      exact List.cons_prefix_cons.mpr ⟨rfl, ih⟩

theorem occ_of_lineMem {A l : List Char} (hl : l ∈ splitLines A) : ∃ i, OccAt l A i := by
  induction A with
  | nil =>
    simp [splitLines] at hl
    exact ⟨0, by simp [hl, OccAt]⟩
  | cons c rest ih =>
    by_cases hc : c = '\n'
    · subst hc
      rw [splitLines_cons_nl, List.mem_cons] at hl
      rcases hl with rfl | hl
      · exact ⟨0, by simp [OccAt]⟩
      · rcases ih hl with ⟨i, hi⟩
        exact ⟨i + 1, occAt_cons.mpr hi⟩
    · rw [splitLines_cons_ne _ hc, List.mem_cons] at hl
      rcases hl with rfl | hl
      · exact ⟨0, occAt_zero.mpr (List.cons_prefix_cons.mpr ⟨rfl, headLine_pfx rest⟩)⟩
      · have hl' : l ∈ splitLines rest := by
          have hne := splitLines_ne_nil rest
          cases hsp : splitLines rest with
          | nil => exact absurd hsp hne
          | cons x xs =>
            rw [hsp] at hl
            exact List.mem_cons_of_mem _ (by simpa using hl)
        rcases ih hl' with ⟨i, hi⟩
        exact ⟨i + 1, occAt_cons.mpr hi⟩

theorem hasSub_of_lineMem {A l : List Char} (hl : l ∈ splitLines A) (hne : l ≠ []) :
    hasSub l A = true := by
  rcases occ_of_lineMem hl with ⟨i, hi⟩
  exact hasSub_of_occAt hne hi

theorem headD_of_pfx2 {B : List Char} (h : ['#', '#'] <+: B) :
    ['#', '#'] <+: (splitLines B).headD [] := by
  rcases B with _ | ⟨b1, B1⟩
  · exact absurd (List.prefix_nil.mp h) (by simp)
  · rcases B1 with _ | ⟨b2, B2⟩
    · rcases List.cons_prefix_cons.mp h with ⟨rfl, h2⟩
      exact absurd (List.prefix_nil.mp h2) (by simp)
    · rcases List.cons_prefix_cons.mp h with ⟨rfl, h2⟩
      rcases List.cons_prefix_cons.mp h2 with ⟨rfl, _⟩
      rw [splitLines_cons_ne _ (by decide), splitLines_cons_ne _ (by decide)]
      simp [List.cons_prefix_cons]

theorem nlHH_occ_line {body : List Char} {i : Nat} (h : OccAt nlHH body i) :
    ∃ l ∈ (splitLines body).tail, ['#', '#'] <+: l := by
  induction body generalizing i with
  | nil =>
    exact absurd (List.prefix_nil.mp (by simpa [OccAt] using h)) (by simp [nlHH])
  | cons b bd ih =>
    cases i with
    | zero =>
      rw [occAt_zero] at h
      rcases List.cons_prefix_cons.mp h with ⟨hb, h2⟩
      subst hb
      rw [splitLines_cons_nl]
      refine ⟨(splitLines bd).headD [], ?_, headD_of_pfx2 h2⟩
      simpa using headD_mem (splitLines_ne_nil bd)
    | succ i' =>
      rcases ih (occAt_cons.mp h) with ⟨l, hl, hp⟩
      by_cases hb : b = '\n'
      · subst hb
        rw [splitLines_cons_nl]
        refine ⟨l, ?_, hp⟩
        have hne := splitLines_ne_nil bd
        cases hsp : splitLines bd with
        | nil => exact absurd hsp hne
        | cons x xs =>
          rw [hsp] at hl
          exact List.mem_cons_of_mem _ (by simpa using hl)
      · rw [splitLines_cons_ne _ hb]
        exact ⟨l, by simpa using hl, hp⟩

theorem takeWhile_append_stop {α : Type} {p : α → Bool} {A B : List α} {x : α}
    (hA : ∀ l ∈ A, p l = true) (hx : p x = false) :
    (A ++ x :: B).takeWhile p = A := by
  induction A with
  | nil => simp [List.takeWhile, hx]
  | cons a A' ih =>
    have ha : p a = true := hA a (by simp)
    rw [List.cons_append, List.takeWhile_cons, ha]
    simp only [if_true]
    rw [ih fun l hl => hA l (List.mem_cons_of_mem _ hl)]

theorem takeWhile_all {α : Type} {p : α → Bool} {A : List α}
    (hA : ∀ l ∈ A, p l = true) : A.takeWhile p = A := by
  induction A with
  | nil => rfl
  | cons a A' ih =>
    rw [List.takeWhile_cons, hA a (by simp)]
    simp only [if_true]
    rw [ih fun l hl => hA l (List.mem_cons_of_mem _ hl)]

theorem rstrip_pfx (s : List Char) : rstrip s <+: s := by
  unfold rstrip
  conv_rhs => rw [← List.reverse_reverse s]
  exact (List.dropWhile_suffix _).reverse

theorem rstrip_eq_self {s : List Char} {c : Char} (h : s.getLast? = some c)
    (hc : isPySpace c = false) : rstrip s = s := by
  unfold rstrip
  rcases hs : s.reverse with _ | ⟨x, xs⟩
  · rw [List.reverse_eq_nil_iff] at hs
    simp [hs]
  · have hx : x = c := by
      have h2 := List.head?_reverse s
      rw [hs, h] at h2
      simpa using h2
    subst hx
    rw [List.dropWhile_cons_of_neg (by simp [hc]), ← hs, List.reverse_reverse]

theorem rstrip_append {A B : List Char} (hB : rstrip B ≠ []) :
    rstrip (A ++ B) = A ++ rstrip B := by
  unfold rstrip at hB ⊢
  rw [List.reverse_append, List.dropWhile_append]
  have hne : (B.reverse.dropWhile isPySpace).isEmpty = false := by
    rcases hd : B.reverse.dropWhile isPySpace with _ | ⟨x, xs⟩
    · exact absurd (by simp [hd]) hB
    · rfl
  rw [hne]
  simp

/-! Where the two `find` calls of `update_context` land on a decomposed file. -/

theorem header_ne_nil (sec : List Char) : sectionHeader sec ≠ [] := by
  simp [sectionHeader]

theorem nl_notMem_header {sec : List Char} (h : '\n' ∉ sec) :
    '\n' ∉ sectionHeader sec := by
  intro hm
  rcases List.mem_cons.mp hm with h1 | hm
  · exact absurd h1 (by decide)
  rcases List.mem_cons.mp hm with h1 | hm
  · exact absurd h1 (by decide)
  rcases List.mem_cons.mp hm with h1 | hm
  · exact absurd h1 (by decide)
  · exact h hm

theorem pfx2_header (sec : List Char) : ['#', '#'] <+: sectionHeader sec :=
  ⟨' ' :: sec, rfl⟩

/-- The `current_content.find("## " + section)` call lands on the header of a
file of the shape `pre ++ "## <sec>" ++ tail`: the preamble contains no copy
of the header and ends in a newline (or is empty), and the header contains no
newline, so no occurrence starts before it. -/
theorem find_header (pre tail sec : List Char) (hsec : '\n' ∉ sec)
    (hpre : pre = [] ∨ pre.getLast? = some '\n')
    (hpsub : hasSub (sectionHeader sec) pre = false) :
    pyFind (sectionHeader sec) (pre ++ sectionHeader sec ++ tail) = some pre.length := by
  have := pyFind_append_newline (B := sectionHeader sec ++ tail)
    (header_ne_nil sec) (nl_notMem_header hsec) hpre hpsub
    (List.prefix_append _ _)
  simpa using this

/-- The `current_content.find("\n##", section_start + 1)` call lands at the
start of `rest` when the block interior `mid` holds no `"\n##"` and `rest`
starts with one. -/
theorem find_next_some (pre mid rest sec : List Char) (hsec : '\n' ∉ sec)
    (hmid : hasSub nlHH mid = false) (hrest : nlHH <+: rest) :
    pyFindFrom nlHH (pre ++ (sectionHeader sec ++ (mid ++ rest))) (pre.length + 1) =
      some (pre.length + ((sectionHeader sec).length + mid.length)) := by
  unfold pyFindFrom
  have hdrop : (pre ++ (sectionHeader sec ++ (mid ++ rest))).drop (pre.length + 1) =
      ('#' :: ' ' :: sec) ++ (mid ++ rest) := by
    rw [List.drop_append]
    rfl
  rw [hdrop]
  have hb0 : rest[0]? = some '\n' := by
    rcases hrest with ⟨r, hr⟩
    rw [← hr]
    rfl
  have hinner : pyFind nlHH (mid ++ rest) = some mid.length :=
    pyFind_append_boundary (by simp [nlHH]) hmid hrest hb0 (by decide)
  have hnl : '\n' ∉ ('#' :: ' ' :: sec) := by
    intro hm
    rcases List.mem_cons.mp hm with h1 | hm
    · exact absurd h1 (by decide)
    rcases List.mem_cons.mp hm with h1 | hm
    · exact absurd h1 (by decide)
    · exact hsec hm
  rw [show (nlHH : List Char) = '\n' :: ['#', '#'] from rfl]
  rw [pyFind_append_shift hnl]
  rw [show ('\n' :: ['#', '#'] : List Char) = nlHH from rfl, hinner]
  simp only [Option.map_some', Option.some.injEq]
  simp [sectionHeader]
  omega

/-- The next-section search finds nothing when the section is the last block:
the block interior holds no `"\n##"` and nothing follows it. -/
theorem find_next_none (pre mid sec : List Char) (hsec : '\n' ∉ sec)
    (hmid : hasSub nlHH mid = false) :
    pyFindFrom nlHH (pre ++ (sectionHeader sec ++ mid)) (pre.length + 1) = none := by
  unfold pyFindFrom
  have hdrop : (pre ++ (sectionHeader sec ++ mid)).drop (pre.length + 1) =
      ('#' :: ' ' :: sec) ++ mid := by
    rw [List.drop_append]
    rfl
  rw [hdrop]
  have hnl : '\n' ∉ ('#' :: ' ' :: sec) := by
    intro hm
    rcases List.mem_cons.mp hm with h1 | hm
    · exact absurd h1 (by decide)
    rcases List.mem_cons.mp hm with h1 | hm
    · exact absurd h1 (by decide)
    · exact hsec hm
  have hinner : pyFind nlHH mid = none := by
    unfold hasSub at hmid
    exact Option.not_isSome_iff_eq_none.mp (by simp [hmid])
  rw [show (nlHH : List Char) = '\n' :: ['#', '#'] from rfl]
  rw [pyFind_append_shift hnl]
  rw [show ('\n' :: ['#', '#'] : List Char) = nlHH from rfl, hinner]
  rfl

/-- Effect of a `replace` call on a file decomposed around its `## <sec>`
block when another block follows: the bytes before the header and the bytes
from the next `"\n##"` on are copied unchanged, the block itself becomes
`"## <sec>\n" ++ X`. -/
theorem updateContext_replace_eq (pre mid rest sec X : List Char)
    (hsec : '\n' ∉ sec)
    (hpre : pre = [] ∨ pre.getLast? = some '\n')
    (hpsub : hasSub (sectionHeader sec) pre = false)
    (hmid : hasSub nlHH mid = false)
    (hrest : nlHH <+: rest) :
    updateContext (pre ++ (sectionHeader sec ++ (mid ++ rest))) sec X .replace =
      pre ++ (sectionHeader sec ++ ('\n' :: X ++ rest)) := by
  have hfind : pyFind (sectionHeader sec)
      (pre ++ (sectionHeader sec ++ (mid ++ rest))) = some pre.length := by
    have := find_header pre (mid ++ rest) sec hsec hpre hpsub
    simpa [List.append_assoc] using this
  have hnext := find_next_some pre mid rest sec hsec hmid hrest
  simp only [updateContext, hfind, hnext, Option.getD_some]
  rw [List.take_left, List.drop_append, List.drop_append, List.drop_left]
  simp [List.append_assoc]

/-- Effect of a `replace` call when the `## <sec>` block is the last block of
the file: the block becomes `"## <sec>\n" ++ X` and nothing follows. -/
theorem updateContext_replace_eq_last (pre mid sec X : List Char)
    (hsec : '\n' ∉ sec)
    (hpre : pre = [] ∨ pre.getLast? = some '\n')
    (hpsub : hasSub (sectionHeader sec) pre = false)
    (hmid : hasSub nlHH mid = false) :
    updateContext (pre ++ (sectionHeader sec ++ mid)) sec X .replace =
      pre ++ (sectionHeader sec ++ ('\n' :: X)) := by
  have hfind : pyFind (sectionHeader sec)
      (pre ++ (sectionHeader sec ++ mid)) = some pre.length := by
    have := find_header pre mid sec hsec hpre hpsub
    simpa [List.append_assoc] using this
  have hnext := find_next_none pre mid sec hsec hmid
  simp only [updateContext, hfind, hnext, Option.getD_none]
  rw [List.drop_length, List.take_left]
  simp [List.append_assoc]

/-! The spliced file has exactly one header line and its block content is `X`. -/

theorem hasSub_append_left {pat A B : List Char} (hne : pat ≠ [])
    (h : hasSub pat (A ++ B) = false) : hasSub pat A = false := by
  cases hA : hasSub pat A with
  | false => rfl
  | true =>
    rcases occAt_of_hasSub hA with ⟨i, hi⟩
    have h2 := hasSub_of_occAt hne (occAt_extend (B := B) hi)
    rw [h] at h2
    cases h2

theorem hasSub_cons_tail {pat rest : List Char} {c : Char} (hne : pat ≠ [])
    (h : hasSub pat (c :: rest) = false) : hasSub pat rest = false := by
  cases hA : hasSub pat rest with
  | false => rfl
  | true =>
    have h2 := hasSub_cons (c := c) hne hA
    rw [h] at h2
    cases h2

theorem count_zero_of_noSub {A hdr : List Char} (hne : hdr ≠ [])
    (h : hasSub hdr A = false) : (splitLines A).count hdr = 0 := by
  rw [List.count_eq_zero]
  intro hmem
  exact absurd (hasSub_of_lineMem hmem hne) (by simp [h])

theorem sectionLines_cons_self {ls : List (List Char)} {hdr : List Char} :
    sectionLines (hdr :: ls) hdr =
      some (ls.takeWhile (fun l2 => !(['#', '#'].isPrefixOf l2))) := by
  simp [sectionLines]

theorem sectionLines_cons_of_ne {l hdr : List Char} {ls : List (List Char)}
    (h : l ≠ hdr) : sectionLines (l :: ls) hdr = sectionLines ls hdr := by
  simp [sectionLines, h]

theorem sectionLines_append_skip {A B : List (List Char)} {hdr : List Char}
    (hA : ∀ l ∈ A, l ≠ hdr) : sectionLines (A ++ B) hdr = sectionLines B hdr := by
  induction A with
  | nil => rfl
  | cons a A' ih =>
    rw [List.cons_append, sectionLines_cons_of_ne (hA a (by simp))]
    exact ih fun l hl => hA l (List.mem_cons_of_mem _ hl)

theorem pass_of_noPfx2 {l : List Char} (h : ¬ ['#', '#'] <+: l) :
    (!(['#', '#'].isPrefixOf l)) = true := by
  have : (['#', '#'].isPrefixOf l) = false := by
    by_contra hb
    exact h (List.isPrefixOf_iff_prefix.mp (by simpa using hb))
  simp [this]

theorem splitLines_header_nl (sec Z : List Char) (hsec : '\n' ∉ sec) :
    splitLines (sectionHeader sec ++ '\n' :: Z) =
      sectionHeader sec :: splitLines Z := by
  rw [splitLines_append_nl, splitLines_no_nl (nl_notMem_header hsec)]
  rfl

/-- A file of the shape `pre ++ "## <sec>" ++ "\n" ++ X ++ rest` — preamble
ending in a newline and containing no header copy, `rest` empty or opening
with `"\n##"` and containing no header copy, no line of `X` opening with
`"##"` — has exactly one `## <sec>` header line, and that block's content is
exactly `X`. -/
theorem shape_count_body (pre X rest sec : List Char)
    (hsec : '\n' ∉ sec)
    (hpre : pre = [] ∨ pre.getLast? = some '\n')
    (hpsub : hasSub (sectionHeader sec) pre = false)
    (hrsub : hasSub (sectionHeader sec) rest = false)
    (hX : ∀ l ∈ splitLines X, ¬ ['#', '#'] <+: l)
    (hrest : rest = [] ∨ nlHH <+: rest) :
    headerCount (pre ++ (sectionHeader sec ++ ('\n' :: (X ++ rest)))) sec = 1 ∧
    sectionBody (pre ++ (sectionHeader sec ++ ('\n' :: (X ++ rest)))) sec = some X := by
  have hhne : sectionHeader sec ≠ [] := header_ne_nil sec
  -- the line list of the whole file
  have hXcount : (splitLines X).count (sectionHeader sec) = 0 := by
    rw [List.count_eq_zero]
    intro hmem
    exact hX _ hmem (pfx2_header sec)
  have hXne : ∀ l ∈ splitLines X, l ≠ sectionHeader sec := by
    intro l hl he
    exact hX l hl (he ▸ pfx2_header sec)
  -- the tail of the line list after the header line, and its takeWhile
  have htake : (splitLines (X ++ rest)).takeWhile
        (fun l2 => !(['#', '#'].isPrefixOf l2)) = splitLines X ∧
      (splitLines (X ++ rest)).count (sectionHeader sec) =
        (splitLines X).count (sectionHeader sec) +
          ((splitLines (X ++ rest)).count (sectionHeader sec) -
            (splitLines X).count (sectionHeader sec)) := by
    constructor
    · rcases hrest with rfl | hr
      · rw [List.append_nil]
        exact takeWhile_all fun l hl => pass_of_noPfx2 (hX l hl)
      · rcases hr with ⟨r, hr⟩
        have hrshape : rest = '\n' :: ('#' :: '#' :: r) := by
          rw [← hr]; rfl
        subst hrshape
        rw [splitLines_append_nl]
        have hne2 := splitLines_ne_nil ('#' :: '#' :: r)
        cases hsp : splitLines ('#' :: '#' :: r) with
        | nil => exact absurd hsp hne2
        | cons l0 ltail =>
          have hl0 : ['#', '#'] <+: l0 := by
            have := headD_of_pfx2 (B := '#' :: '#' :: r) ⟨r, rfl⟩
            rw [hsp] at this
            simpa using this
          refine takeWhile_append_stop (fun l hl => pass_of_noPfx2 (hX l hl)) ?_
          simp [List.isPrefixOf_iff_prefix.mpr hl0]
    · omega
  rcases hrest with rfl | hr
  · -- the section is the last block
    rw [List.append_nil] at htake ⊢
    have hlineZ : splitLines (sectionHeader sec ++ '\n' :: X) =
        sectionHeader sec :: splitLines X := splitLines_header_nl sec X hsec
    rcases hpre with rfl | hlast
    · constructor
      · rw [List.nil_append, headerCount, hlineZ, List.count_cons_self, hXcount]
      · rw [List.nil_append, sectionBody, hlineZ, sectionLines_cons_self,
          htake.1]
        simp [joinLines_splitLines]
    · rcases List.getLast?_eq_some_iff.mp hlast with ⟨pre', rfl⟩
      have hpre'sub : hasSub (sectionHeader sec) pre' = false :=
        hasSub_append_left hhne hpsub
      have hassoc : (pre' ++ ['\n']) ++ (sectionHeader sec ++ '\n' :: X) =
          pre' ++ '\n' :: (sectionHeader sec ++ '\n' :: X) := by
        simp
      rw [hassoc]
      have hlines : splitLines (pre' ++ '\n' :: (sectionHeader sec ++ '\n' :: X)) =
          splitLines pre' ++ sectionHeader sec :: splitLines X := by
        rw [splitLines_append_nl, hlineZ]
      constructor
      · rw [headerCount, hlines, List.count_append, List.count_cons_self,
          hXcount, count_zero_of_noSub hhne hpre'sub]
      · rw [sectionBody, hlines, sectionLines_append_skip (fun l hl he => by
          exact absurd (hasSub_of_lineMem (he ▸ hl) hhne)
            (by simp [hpre'sub])), sectionLines_cons_self, htake.1]
        simp [joinLines_splitLines]
  · -- another block follows
    rcases hr with ⟨r, hrr⟩
    have hrne : rest ≠ [] := by rw [← hrr]; simp [nlHH]
    have hrcount : (splitLines (X ++ rest)).count (sectionHeader sec) = 0 := by
      have hrshape : rest = '\n' :: ('#' :: '#' :: r) := by rw [← hrr]; rfl
      subst hrshape
      rw [splitLines_append_nl, List.count_append, hXcount,
        count_zero_of_noSub hhne (hasSub_cons_tail hhne hrsub)]
    have hlineZ : splitLines (sectionHeader sec ++ '\n' :: (X ++ rest)) =
        sectionHeader sec :: splitLines (X ++ rest) :=
      splitLines_header_nl sec (X ++ rest) hsec
    rcases hpre with rfl | hlast
    · constructor
      · rw [List.nil_append, headerCount, hlineZ, List.count_cons_self, hrcount]
      · rw [List.nil_append, sectionBody, hlineZ, sectionLines_cons_self,
          htake.1]
        simp [joinLines_splitLines]
    · rcases List.getLast?_eq_some_iff.mp hlast with ⟨pre', rfl⟩
      have hpre'sub : hasSub (sectionHeader sec) pre' = false :=
        hasSub_append_left hhne hpsub
      have hassoc : (pre' ++ ['\n']) ++ (sectionHeader sec ++ '\n' :: (X ++ rest)) =
          pre' ++ '\n' :: (sectionHeader sec ++ '\n' :: (X ++ rest)) := by
        simp
      rw [hassoc]
      have hlines : splitLines
          (pre' ++ '\n' :: (sectionHeader sec ++ '\n' :: (X ++ rest))) =
          splitLines pre' ++ sectionHeader sec :: splitLines (X ++ rest) := by
        rw [splitLines_append_nl, hlineZ]
      constructor
      · rw [headerCount, hlines, List.count_append, List.count_cons_self,
          hrcount, count_zero_of_noSub hhne hpre'sub]
      · rw [sectionBody, hlines, sectionLines_append_skip (fun l hl he => by
          exact absurd (hasSub_of_lineMem (he ▸ hl) hhne)
            (by simp [hpre'sub])), sectionLines_cons_self, htake.1]
        simp [joinLines_splitLines]

/-! Claim C1: replace mode of `update_context`. -/

theorem lookupFile_writeFile_self (fs : FileMap) (name content : List Char) :
    lookupFile (writeFile fs name content) name = some content := by
  induction fs with
  | nil => simp [writeFile, lookupFile]
  | cons p rest ih =>
    rcases p with ⟨k, v⟩
    by_cases hk : k = name
    · subst hk
      simp [writeFile, lookupFile]
    · simp [writeFile, lookupFile, hk, ih]

/-- C1 (amended): on an active memory bank and a prior file state whose only
occurrence of `"## <sec>"` is a header at the start of a line — the preamble
`pre` ends in a newline (or is empty), the block interior `mid` holds no
`"\n##"`, the remainder `rest` is empty or starts at the next `"\n##"`, and
neither `pre`, `mid` nor `rest` holds another copy of the header — and for a
content `X` none of whose lines opens with `"##"`,
`update_context(file, sec, X, mode="replace")` succeeds and leaves the file
with exactly one `## <sec>` header line whose block content is exactly `X`,
the bytes before the block and the bytes from the next section header on
being copied unchanged.  (On an arbitrary prior state the claim fails: a
state with two `## Foo` blocks keeps two, see the counterexample.) -/
theorem c1_replace_unique (mb : MemoryBank) (fn sec X pre mid rest : List Char)
    (hact : mb.isActive = true)
    (hfile : lookupFile mb.files fn =
      some (pre ++ (sectionHeader sec ++ (mid ++ rest))))
    (hsec : '\n' ∉ sec)
    (hpre : pre = [] ∨ pre.getLast? = some '\n')
    (hpsub : hasSub (sectionHeader sec) pre = false)
    (hmsub : hasSub (sectionHeader sec) mid = false)
    (hmid : hasSub nlHH mid = false)
    (hrsub : hasSub (sectionHeader sec) rest = false)
    (hrest : rest = [] ∨ nlHH <+: rest)
    (hX : ∀ l ∈ splitLines X, ¬ ['#', '#'] <+: l) :
    ∃ mb', mbUpdateContext mb fn sec X .replace = .ok mb' ∧
      lookupFile mb'.files fn =
        some (pre ++ (sectionHeader sec ++ ('\n' :: (X ++ rest)))) ∧
      headerCount (pre ++ (sectionHeader sec ++ ('\n' :: (X ++ rest)))) sec = 1 ∧
      sectionBody (pre ++ (sectionHeader sec ++ ('\n' :: (X ++ rest)))) sec = some X := by
  have hsplice : updateContext (pre ++ (sectionHeader sec ++ (mid ++ rest))) sec X
      .replace = pre ++ (sectionHeader sec ++ ('\n' :: (X ++ rest))) := by
    rcases hrest with rfl | hr
    · have := updateContext_replace_eq_last pre mid sec X hsec hpre hpsub hmid
      simpa using this
    · have := updateContext_replace_eq pre mid rest sec X hsec hpre hpsub hmid hr
      simpa using this
  have hrun : mbUpdateContext mb fn sec X .replace =
      .ok { mb with
            files := writeFile mb.files fn
              (pre ++ (sectionHeader sec ++ ('\n' :: (X ++ rest)))),
            currentTokens := mb.currentTokens +
              (((pre ++ (sectionHeader sec ++ ('\n' :: (X ++ rest)))).length : Int) -
                ((pre ++ (sectionHeader sec ++ (mid ++ rest))).length : Int)) } := by
    unfold mbUpdateContext
    rw [hact]
    simp only [Bool.true_eq_false, if_false, hfile, hsplice]
  exact ⟨_, hrun, by simp only [lookupFile_writeFile_self],
    shape_count_body pre X rest sec hsec hpre hpsub hrsub hX hrest⟩

theorem c1_replace_unique_witness :
    ∃ mb', mbUpdateContext c1mb (s2l "activeContext.md") (s2l "Foo") (s2l "X")
        .replace = .ok mb' ∧
      lookupFile mb'.files (s2l "activeContext.md") =
        some (s2l "# activeContext\n\n" ++ (sectionHeader (s2l "Foo") ++
          ('\n' :: (s2l "X" ++ s2l "\n## Bar\nkeep\n")))) ∧
      headerCount (s2l "# activeContext\n\n" ++ (sectionHeader (s2l "Foo") ++
          ('\n' :: (s2l "X" ++ s2l "\n## Bar\nkeep\n")))) (s2l "Foo") = 1 ∧
      sectionBody (s2l "# activeContext\n\n" ++ (sectionHeader (s2l "Foo") ++
          ('\n' :: (s2l "X" ++ s2l "\n## Bar\nkeep\n")))) (s2l "Foo") = some (s2l "X") :=
  c1_replace_unique c1mb (s2l "activeContext.md") (s2l "Foo") (s2l "X")
    (s2l "# activeContext\n\n") (s2l "\nold\n") (s2l "\n## Bar\nkeep\n")
    (by decide) (by decide) (by decide) (by decide) (by decide) (by decide)
    (by decide) (by decide) (Or.inr (by decide)) (by decide)

/-- C1 counterexample: a prior state with two `## Foo` blocks; replace leaves
two `## Foo` header lines, not exactly one. -/
theorem c1_replace_counterexample :
    headerCount (s2l "# f\n\n## Foo\na\n\n## Foo\nb\n") (s2l "Foo") = 2 ∧
    updateContext (s2l "# f\n\n## Foo\na\n\n## Foo\nb\n") (s2l "Foo") (s2l "X")
        .replace = s2l "# f\n\n## Foo\nX\n## Foo\nb\n" ∧
    headerCount (s2l "# f\n\n## Foo\nX\n## Foo\nb\n") (s2l "Foo") = 2 ∧
    ¬ headerCount (s2l "# f\n\n## Foo\nX\n## Foo\nb\n") (s2l "Foo") = 1 := by
  refine ⟨by decide, by decide, by decide, by decide⟩

/-! Claim C2: section names in a prefix relation. -/

theorem hasSub_nlHH_single_line {a : List Char} (ha1 : '\n' ∉ a)
    (ha2 : ¬ ['#', '#'] <+: a) : hasSub nlHH ('\n' :: (a ++ ['\n'])) = false := by
  rw [hasSub_false_iff (by simp [nlHH])]
  intro i hOi
  cases i with
  | zero =>
    rw [occAt_zero] at hOi
    rcases List.cons_prefix_cons.mp hOi with ⟨-, h2⟩
    rcases a with _ | ⟨x, a'⟩
    · exact absurd (List.cons_prefix_cons.mp h2).1 (by decide)
    · rcases List.cons_prefix_cons.mp h2 with ⟨rfl, h3⟩
      rcases a' with _ | ⟨y, a''⟩
      · exact absurd (List.cons_prefix_cons.mp h3).1 (by decide)
      · rcases List.cons_prefix_cons.mp h3 with ⟨rfl, -⟩
        exact ha2 ⟨a'', rfl⟩
  | succ i' =>
    have hOi' : OccAt nlHH (a ++ ['\n']) i' := occAt_cons.mp hOi
    rcases le_or_lt a.length i' with hle | hlt
    · have hlen := hOi'.length_le
      rw [List.length_drop, List.length_append] at hlen
      simp [nlHH] at hlen
      omega
    · have hg := occAt_getElem (m := 0) hOi' (by simp [nlHH])
      rw [Nat.add_zero, List.getElem?_append, if_pos hlt] at hg
      have : '\n' ∈ a := List.getElem?_mem (by rw [hg]; rfl)
      exact ha1 this

/-- C2 (amended): `update_context` locates the block by the first substring
occurrence of `"## " + section`.  When the exact `## Task` header line occurs
before the `## Task Details` block — here a file
`"# H\n\n## Task\n" ++ a ++ "\n\n## Task Details\n" ++ b ++ "\n"` whose `Task`
body `a` is one line not opening with `"##"` — editing `Task` replaces only
the `Task` block and copies the `"\n## Task Details\n" ++ b ++ "\n"` suffix
byte for byte.  (When the file has no exact `## Task` header before it, the
substring scan seizes the `## Task Details` block instead: counterexample.) -/
theorem c2_header_before (a b X : List Char)
    (ha1 : '\n' ∉ a) (ha2 : ¬ ['#', '#'] <+: a) :
    updateContext
        (s2l "# H\n\n" ++ (sectionHeader (s2l "Task") ++
          (('\n' :: (a ++ ['\n'])) ++ (s2l "\n## Task Details\n" ++ (b ++ ['\n'])))))
        (s2l "Task") X .replace =
      s2l "# H\n\n" ++ (sectionHeader (s2l "Task") ++
        ('\n' :: (X ++ (s2l "\n## Task Details\n" ++ (b ++ ['\n']))))) := by
  have := updateContext_replace_eq (s2l "# H\n\n") ('\n' :: (a ++ ['\n']))
    (s2l "\n## Task Details\n" ++ (b ++ ['\n'])) (s2l "Task") X
    (by decide) (Or.inr (by decide)) (by decide)
    (hasSub_nlHH_single_line ha1 ha2)
    ⟨s2l " Task Details\n" ++ (b ++ ['\n']), rfl⟩
  simpa using this

theorem c2_header_before_witness :
    updateContext
        (s2l "# H\n\n" ++ (sectionHeader (s2l "Task") ++
          (('\n' :: (s2l "body" ++ ['\n'])) ++
            (s2l "\n## Task Details\n" ++ (s2l "dd" ++ ['\n'])))))
        (s2l "Task") (s2l "X") .replace =
      s2l "# H\n\n" ++ (sectionHeader (s2l "Task") ++
        ('\n' :: (s2l "X" ++ (s2l "\n## Task Details\n" ++ (s2l "dd" ++ ['\n']))))) :=
  c2_header_before (s2l "body") (s2l "dd") (s2l "X") (by decide) (by decide)

/-- C2 counterexample: the file holds a `## Task Details` block and no exact
`## Task` header; `update_context(file, "Task", "X", "replace")` matches the
substring `"## Task"` inside the `## Task Details` header line and replaces
that whole block, destroying it. -/
theorem c2_counterexample :
    updateContext (s2l "# d\n\n## Task Details\nx\n") (s2l "Task") (s2l "X")
        .replace = s2l "# d\n\n## Task\nX" ∧
    headerCount (s2l "# d\n\n## Task Details\nx\n") (s2l "Task Details") = 1 ∧
    headerCount (s2l "# d\n\n## Task\nX") (s2l "Task Details") = 0 ∧
    sectionBody (s2l "# d\n\n## Task\nX") (s2l "Task Details") = none := by
  refine ⟨by decide, by decide, by decide, by decide⟩

/-! Claim C4: append mode keeps a single section block. -/

theorem hasSub_nlHH_of_lines {body : List Char}
    (h : ∀ l ∈ splitLines body, ¬ ['#', '#'] <+: l) :
    hasSub nlHH ('\n' :: body) = false := by
  rw [hasSub_false_iff (by simp [nlHH])]
  intro i hOi
  cases i with
  | zero =>
    rw [occAt_zero] at hOi
    rcases List.cons_prefix_cons.mp hOi with ⟨-, h2⟩
    have hline := headD_of_pfx2 h2
    exact h _ (headD_mem (splitLines_ne_nil body)) hline
  | succ i' =>
    rcases nlHH_occ_line (occAt_cons.mp hOi) with ⟨l, hl, hp⟩
    have hlm : l ∈ splitLines body := by
      have hne := splitLines_ne_nil body
      cases hsp : splitLines body with
      | nil => exact absurd hsp hne
      | cons x xs =>
        rw [hsp] at hl
        exact List.mem_cons_of_mem _ (by simpa using hl)
    exact h l hlm hp

theorem rstrip_append_ws {A B : List Char} (hB : rstrip B = []) :
    rstrip (A ++ B) = rstrip A := by
  unfold rstrip at hB ⊢
  rw [List.reverse_append, List.dropWhile_append]
  have hBe : (B.reverse.dropWhile isPySpace).isEmpty = true := by
    have : B.reverse.dropWhile isPySpace = [] := by
      have := congrArg List.reverse hB
      simpa using this
    simp [this]
  rw [hBe]
  simp

theorem header_getLast {sec : List Char} {lc : Char}
    (h : sec.getLast? = some lc) : (sectionHeader sec).getLast? = some lc := by
  have hne : sec ≠ [] := by
    intro he
    rw [he] at h
    cases h
  rw [show sectionHeader sec = ['#', '#', ' '] ++ sec from rfl,
    List.getLast?_append_of_ne_nil _ hne, h]

theorem appendInv_headerCount {sec cur : List Char} (hsec : '\n' ∉ sec)
    (h : AppendInv sec cur) : headerCount cur sec = 1 := by
  obtain ⟨pre, body, rfl, hpre, hpsub, hlines, -⟩ := h
  have hbcount : (splitLines body).count (sectionHeader sec) = 0 := by
    rw [List.count_eq_zero]
    intro hm
    exact hlines _ hm (pfx2_header sec)
  rcases hpre with rfl | hlast
  · rw [List.nil_append, headerCount, splitLines_header_nl sec body hsec,
      List.count_cons_self, hbcount]
  · rcases List.getLast?_eq_some_iff.mp hlast with ⟨pre', rfl⟩
    have hassoc : (pre' ++ ['\n']) ++ (sectionHeader sec ++ '\n' :: body) =
        pre' ++ '\n' :: (sectionHeader sec ++ '\n' :: body) := by
      simp
    rw [hassoc, headerCount, splitLines_append_nl,
      splitLines_header_nl sec body hsec, List.count_append,
      List.count_cons_self, hbcount,
      count_zero_of_noSub (header_ne_nil sec)
        (hasSub_append_left (header_ne_nil sec) hpsub)]

/-- One benign append preserves the single-block invariant. -/
theorem appendInv_step {sec cur c : List Char} (hsec : '\n' ∉ sec)
    (hsl : ∃ lc, sec.getLast? = some lc ∧ isPySpace lc = false)
    (hc : benignLine c = true) (h : AppendInv sec cur) :
    AppendInv sec (updateContext cur sec c .append) := by
  obtain ⟨pre, body, rfl, hpre, hpsub, hlines, hend⟩ := h
  obtain ⟨lc0, hlc0, hws0⟩ := hsl
  have hcne : c ≠ [] := by
    intro he
    rw [he] at hc
    simp [benignLine] at hc
  have hcnl : '\n' ∉ c := by
    intro hm
    unfold benignLine at hc
    have := (Bool.and_eq_true _ _).mp ((Bool.and_eq_true _ _).mp
      ((Bool.and_eq_true _ _).mp hc).1).1
    have h2 := List.all_eq_true.mp this.2 _ hm
    simp at h2
  have hcpfx : ¬ ['#', '#'] <+: c := by
    intro hp
    unfold benignLine at hc
    have := ((Bool.and_eq_true _ _).mp ((Bool.and_eq_true _ _).mp hc).1).2
    rw [List.isPrefixOf_iff_prefix.mpr hp] at this
    simp at this
  have hclast : ∃ lc, c.getLast? = some lc ∧ isPySpace lc = false := by
    unfold benignLine at hc
    have := ((Bool.and_eq_true _ _).mp hc).2
    cases hg : c.getLast? with
    | none => rw [hg] at this; cases this
    | some lc =>
      rw [hg] at this
      exact ⟨lc, rfl, by simpa using this⟩
  have hfind : pyFind (sectionHeader sec)
      (pre ++ (sectionHeader sec ++ ('\n' :: body))) = some pre.length := by
    have := find_header pre ('\n' :: body) sec hsec hpre hpsub
    simpa [List.append_assoc] using this
  have hnext : pyFindFrom nlHH (pre ++ (sectionHeader sec ++ ('\n' :: body)))
      (pre.length + 1) = none :=
    find_next_none pre ('\n' :: body) sec hsec (hasSub_nlHH_of_lines hlines)
  simp only [updateContext, hfind, hnext, Option.getD_none, List.take_length,
    List.take_left, List.drop_length, List.drop_left, List.append_nil]
  rcases hend with rfl | ⟨lc, hlc, hws⟩
  · have hrs : rstrip (sectionHeader sec ++ ('\n' :: ([] : List Char))) =
        sectionHeader sec := by
      rw [show ('\n' :: ([] : List Char)) = ['\n'] from rfl,
        rstrip_append_ws (by decide)]
      exact rstrip_eq_self (header_getLast hlc0) hws0
    rw [hrs]
    refine ⟨pre, c, by simp [List.append_assoc], hpre, hpsub, ?_, ?_⟩
    · rw [splitLines_no_nl hcnl]
      intro l hl
      rw [List.mem_singleton] at hl
      subst hl
      exact hcpfx
    · exact Or.inr hclast
  · have hbne : body ≠ [] := by
      intro he
      rw [he] at hlc
      cases hlc
    have hrs : rstrip (sectionHeader sec ++ ('\n' :: body)) =
        sectionHeader sec ++ ('\n' :: body) := by
      refine rstrip_eq_self ?_ hws
      rw [List.getLast?_append_of_ne_nil _ (by simp),
        show ('\n' :: body) = ['\n'] ++ body from rfl,
        List.getLast?_append_of_ne_nil _ hbne, hlc]
    rw [hrs]
    refine ⟨pre, body ++ '\n' :: c, by simp [List.append_assoc], hpre, hpsub, ?_, ?_⟩
    · rw [splitLines_append_nl, splitLines_no_nl hcnl]
      intro l hl
      rcases List.mem_append.mp hl with hl | hl
      · exact hlines l hl
      · rw [List.mem_singleton] at hl
        subst hl
        exact hcpfx
    · refine Or.inr ?_
      rcases hclast with ⟨lc', hlc', hws'⟩
      refine ⟨lc', ?_, hws'⟩
      rw [List.getLast?_append_of_ne_nil _ (by simp),
        show ('\n' :: c) = ['\n'] ++ c from rfl,
        List.getLast?_append_of_ne_nil _ hcne, hlc']

/-- Any sequence of benign appends preserves the single-block invariant. -/
theorem appendAll_inv {sec cur : List Char} {cs : List (List Char)}
    (hsec : '\n' ∉ sec)
    (hsl : ∃ lc, sec.getLast? = some lc ∧ isPySpace lc = false)
    (hcs : ∀ c ∈ cs, benignLine c = true) (h : AppendInv sec cur) :
    AppendInv sec (appendAll sec cur cs) := by
  induction cs generalizing cur with
  | nil => exact h
  | cons c cs' ih =>
    exact ih (fun x hx => hcs x (List.mem_cons_of_mem _ hx))
      (appendInv_step hsec hsl (hcs c (by simp)) h)

/-- C4: on a freshly initialized memory-bank file,
`update_context(file, "Foo", "bar", mode="append")` followed by
`update_context(file, "Foo", "baz", mode="append")` leaves exactly one
`## Foo` header line, whose block content is exactly `"bar\nbaz"` — `bar`
before `baz` — and any further appends of benign one-line contents to the
same section never create a duplicate `## Foo` block. -/
theorem c4_append_single_block (f : List Char) (hf : f ∈ requiredFiles)
    (cs : List (List Char)) (hcs : ∀ c ∈ cs, benignLine c = true) :
    headerCount (fooTwice f) (s2l "Foo") = 1 ∧
    sectionBody (fooTwice f) (s2l "Foo") = some (s2l "bar\nbaz") ∧
    headerCount (appendAll (s2l "Foo") (fooTwice f) cs) (s2l "Foo") = 1 := by
  have hinv : AppendInv (s2l "Foo") (fooTwice f) ∧
      headerCount (fooTwice f) (s2l "Foo") = 1 ∧
      sectionBody (fooTwice f) (s2l "Foo") = some (s2l "bar\nbaz") := by
    fin_cases hf
    · exact ⟨⟨s2l "# productContext\n\n", s2l "bar\nbaz", by decide,
        Or.inr (by decide), by decide, by decide,
        Or.inr ⟨'z', by decide, by decide⟩⟩, by decide, by decide⟩
    · exact ⟨⟨s2l "# activeContext\n\n", s2l "bar\nbaz", by decide,
        Or.inr (by decide), by decide, by decide,
        Or.inr ⟨'z', by decide, by decide⟩⟩, by decide, by decide⟩
    · exact ⟨⟨s2l "# systemPatterns\n\n", s2l "bar\nbaz", by decide,
        Or.inr (by decide), by decide, by decide,
        Or.inr ⟨'z', by decide, by decide⟩⟩, by decide, by decide⟩
    · exact ⟨⟨s2l "# techContext\n\n", s2l "bar\nbaz", by decide,
        Or.inr (by decide), by decide, by decide,
        Or.inr ⟨'z', by decide, by decide⟩⟩, by decide, by decide⟩
    · exact ⟨⟨s2l "# progress\n\n", s2l "bar\nbaz", by decide,
        Or.inr (by decide), by decide, by decide,
        Or.inr ⟨'z', by decide, by decide⟩⟩, by decide, by decide⟩
  exact ⟨hinv.2.1, hinv.2.2,
    appendInv_headerCount (by decide)
      (appendAll_inv (by decide) ⟨'o', by decide, by decide⟩ hcs hinv.1)⟩

theorem c4_append_single_block_witness :
    headerCount (fooTwice (s2l "activeContext.md")) (s2l "Foo") = 1 ∧
    sectionBody (fooTwice (s2l "activeContext.md")) (s2l "Foo") =
      some (s2l "bar\nbaz") ∧
    headerCount (appendAll (s2l "Foo") (fooTwice (s2l "activeContext.md"))
      [s2l "qux"]) (s2l "Foo") = 1 :=
  c4_append_single_block (s2l "activeContext.md") (by decide) [s2l "qux"]
    (by decide)

/-! Claim C5: `initialize` idempotence on the file system. -/

theorem lookupFile_writeFile_other {fs : FileMap} {name other content : List Char}
    (h : other ≠ name) :
    lookupFile (writeFile fs name content) other = lookupFile fs other := by
  induction fs with
  | nil => simp [writeFile, lookupFile, Ne.symm h]
  | cons p rest ih =>
    rcases p with ⟨k, v⟩
    by_cases hk : k = name
    · subst hk
      simp [writeFile, lookupFile, Ne.symm h]
    · simp [writeFile, lookupFile, hk, ih]

theorem initStep_preserves {fs : FileMap} {g c : List Char} (f : List Char)
    (h : lookupFile fs g = some c) : lookupFile (initStep fs f) g = some c := by
  unfold initStep
  by_cases hp : (lookupFile fs f).isSome = true
  · simp [hp, h]
  · have hgf : g ≠ f := by
      intro he
      subst he
      rw [h] at hp
      simp at hp
    rw [if_neg hp, lookupFile_writeFile_other hgf]
    exact h

theorem initFold_preserves {g c : List Char} (L : List (List Char))
    {fs : FileMap} (h : lookupFile fs g = some c) :
    lookupFile (L.foldl initStep fs) g = some c := by
  induction L generalizing fs with
  | nil => exact h
  | cons f L' ih => exact ih (initStep_preserves f h)

theorem initFold_present {f : List Char} (L : List (List Char)) {fs : FileMap}
    (hf : f ∈ L) : (lookupFile (L.foldl initStep fs) f).isSome = true := by
  induction L generalizing fs with
  | nil => cases hf
  | cons g L' ih =>
    rcases List.mem_cons.mp hf with rfl | hf'
    · show (lookupFile (L'.foldl initStep (initStep fs f)) f).isSome = true
      have hpres : ∃ c, lookupFile (initStep fs f) f = some c := by
        unfold initStep
        by_cases hp : (lookupFile fs f).isSome = true
        · rcases Option.isSome_iff_exists.mp hp with ⟨c, hc⟩
          exact ⟨c, by simp [hp, hc]⟩
        · exact ⟨initHeader f, by simp [hp, lookupFile_writeFile_self]⟩
      rcases hpres with ⟨c, hc⟩
      rw [initFold_preserves L' hc]
      rfl
    · exact ih hf'

theorem initStep_id {fs : FileMap} {f : List Char}
    (h : (lookupFile fs f).isSome = true) : initStep fs f = fs := by
  simp [initStep, h]

theorem initFold_id {fs : FileMap} {L : List (List Char)}
    (h : ∀ f ∈ L, (lookupFile fs f).isSome = true) : L.foldl initStep fs = fs := by
  induction L with
  | nil => rfl
  | cons f L' ih =>
    show L'.foldl initStep (initStep fs f) = fs
    rw [initStep_id (h f (by simp))]
    exact ih fun g hg => h g (List.mem_cons_of_mem _ hg)

/-- C5: after `initialize()` every required memory-bank file exists; every
file content present before the call is untouched (existing files are
skipped, so nothing is erased); a second `initialize()` changes nothing at
all; and the bank is active. -/
theorem c5_init_idempotent (mb : MemoryBank) :
    (∀ f ∈ requiredFiles, (lookupFile (mbInit mb).files f).isSome = true) ∧
    (∀ f c, lookupFile mb.files f = some c →
      lookupFile (mbInit mb).files f = some c) ∧
    mbInit (mbInit mb) = mbInit mb ∧
    (mbInit mb).isActive = true := by
  refine ⟨fun f hf => initFold_present requiredFiles hf,
    fun f c hc => initFold_preserves requiredFiles hc, ?_, rfl⟩
  show { mbInit mb with
      files := List.foldl initStep (mbInit mb).files requiredFiles,
      isActive := true } = mbInit mb
  have h2 : List.foldl initStep (mbInit mb).files requiredFiles = (mbInit mb).files :=
    initFold_id fun f hf => initFold_present requiredFiles hf
  rw [h2]
  rfl

theorem c5_init_idempotent_witness :
    (lookupFile (mbInit c5mb).files (s2l "productContext.md")).isSome = true ∧
    lookupFile (mbInit c5mb).files (s2l "progress.md") =
      some (s2l "# progress\n\nkeep") ∧
    mbInit (mbInit c5mb) = mbInit c5mb :=
  ⟨(c5_init_idempotent c5mb).1 (s2l "productContext.md") (by decide),
   (c5_init_idempotent c5mb).2.1 (s2l "progress.md") _ (by decide),
   (c5_init_idempotent c5mb).2.2.1⟩

/-! Claim C3: the `add-dependency` command. -/

/-- C3: the command never succeeds.  On two existing dependency-free tasks —
an acyclic addition the claim says must succeed — the in-memory append is
followed by `manager._save_tasks()`, which raises `AttributeError` (the
exported `PromptManager` has `save_tasks` only), so the command prints the
error and exits 1.  And the cycle test is direct-only: with `A -> B -> C`
already stored, closing the cycle with `add-dependency C A` is not reported
as circular (the check evaluates false) — it dies on the same
`AttributeError` instead. -/
theorem c3_add_dependency_broken :
    (addDependencyCmd [(s2l "A", []), (s2l "B", [])] (s2l "A") (s2l "B")).exitCode
        = 1 ∧
    (addDependencyCmd [(s2l "A", []), (s2l "B", [])] (s2l "A") (s2l "B")).stderrLines
        = [s2l "Error adding dependency: 'PromptManager' object has no attribute '_save_tasks'"] ∧
    circularCheck [] [s2l "B"] (s2l "C") (s2l "A") = false ∧
    (addDependencyCmd [(s2l "A", [s2l "B"]), (s2l "B", [s2l "C"]), (s2l "C", [])]
        (s2l "C") (s2l "A")).stderrLines
      = [s2l "Error adding dependency: 'PromptManager' object has no attribute '_save_tasks'"] := by
  refine ⟨by decide, by decide, by decide, by decide⟩

/-! Claim C6: duplicate add. -/

/-- C6: `add_task` of an existing title fails with the duplicate-title error.
The duplicate check is the first statement of the method, so the exception is
raised before any mutation: the store, and in particular the record under the
title, is exactly as before the call. -/
theorem c6_duplicate_add (ts : Store) (title d : List Char)
    (template : Option (List Char)) (p : List Char) (now : Nat) (t0 : Task)
    (h : storeLookup ts title = some t0) :
    addTask ts title d template p now =
      .error (s2l "Task with title '" ++ title ++ s2l "' already exists") := by
  unfold addTask
  rw [h]
  rfl

theorem c6_duplicate_add_witness :
    addTask [(s2l "A", sampleTask)] (s2l "A") (s2l "other") none (s2l "high") 9 =
      .error (s2l "Task with title '" ++ s2l "A" ++ s2l "' already exists") :=
  c6_duplicate_add [(s2l "A", sampleTask)] (s2l "A") (s2l "other") none
    (s2l "high") 9 sampleTask (by decide)

/-! Claim C7: `update_task_status`. -/

/-- C7: for an existing task and any enum status — supplied as the member or
as its value string — `update_task_status` succeeds whatever the previous
status: the status is set, `updated_at` is bumped to the call time, and
exactly one timestamped note is appended when a non-empty note is given,
none otherwise. -/
theorem c7_update_status (ts : Store) (title : List Char) (t0 : Task)
    (st : TaskStatus) (si : TaskStatus ⊕ List Char) (note : Option (List Char))
    (now : Nat)
    (hfound : storeLookup ts title = some t0)
    (hsi : si = .inl st ∨ si = .inr (TaskStatus.value st)) :
    updateTaskStatus ts (.inr title) si note now =
      .ok (storeInsert ts title (t0.updateStatus st note now)) ∧
    (t0.updateStatus st note now).status = st ∧
    (t0.updateStatus st note now).updatedAt = now ∧
    ((note = none ∨ note = some []) →
      (t0.updateStatus st note now).notes = t0.notes) ∧
    (∀ n, note = some n → n ≠ [] →
      (t0.updateStatus st note now).notes =
        t0.notes ++ [renderTime now ++ (' ' :: '-' :: ' ' :: n)]) := by
  have hst : statusOfInput si = .ok st := by
    rcases hsi with rfl | rfl
    · rfl
    · cases st <;> rfl
  refine ⟨?_, rfl, rfl, ?_, ?_⟩
  · unfold updateTaskStatus getTask storeWrite
    simp only [hfound, hst]
  · rintro (rfl | rfl)
    · rfl
    · simp [Task.updateStatus]
  · rintro n rfl hne
    simp [Task.updateStatus, hne]

theorem c7_update_status_witness :
    updateTaskStatus [(s2l "A", sampleTask)] (.inr (s2l "A"))
        (.inr (s2l "done")) (some (s2l "ok")) 5 =
      .ok (storeInsert [(s2l "A", sampleTask)] (s2l "A")
        (sampleTask.updateStatus .done (some (s2l "ok")) 5)) ∧
    (sampleTask.updateStatus .done (some (s2l "ok")) 5).notes =
      sampleTask.notes ++ [renderTime 5 ++ (' ' :: '-' :: ' ' :: s2l "ok")] :=
  ⟨(c7_update_status [(s2l "A", sampleTask)] (s2l "A") sampleTask .done
      (.inr (s2l "done")) (some (s2l "ok")) 5 (by decide) (Or.inr rfl)).1,
   (c7_update_status [(s2l "A", sampleTask)] (s2l "A") sampleTask .done
      (.inr (s2l "done")) (some (s2l "ok")) 5 (by decide) (Or.inr rfl)).2.2.2.2
     (s2l "ok") rfl (by decide)⟩

/-! Claim C8: validation on `add_task`. -/

/-- C8: the empty-title half of the claim fails on the code.  On the empty
store, `add_task(title="", description="d", priority="medium")` runs no title
check at all: it succeeds and inserts a task keyed by the empty string.  (The
repository's tests and `models/__init__.py` expect
`ValueError("Title must be a non-empty string")`.)  The priority half does
hold: a priority outside the closed set is rejected and nothing is inserted. -/
theorem c8_empty_title_accepted :
    addTask ([] : Store) [] (s2l "d") none (s2l "medium") 7 =
      .ok [([],
        { title := [], description := s2l "d", priority := s2l "medium",
          status := .pending, promptTemplate := [], notes := [],
          createdAt := 7, updatedAt := 7 })] ∧
    (∀ r, addTask ([] : Store) (s2l "T") (s2l "d") none (s2l "urgent") 7 ≠ .ok r) ∧
    addTask ([] : Store) (s2l "T") (s2l "d") none (s2l "urgent") 7 =
      .error (s2l "Invalid priority '" ++ s2l "urgent" ++
        s2l "'. Must be one of: low, medium, high") := by
  refine ⟨rfl, ?_, rfl⟩
  intro r hr
  rw [show addTask ([] : Store) (s2l "T") (s2l "d") none (s2l "urgent") 7 =
    .error (s2l "Invalid priority '" ++ s2l "urgent" ++
      s2l "'. Must be one of: low, medium, high") from rfl] at hr
  cases hr

/-! Claim C9: CLI error handling and exit codes. -/

/-- C9 counterexample: `generate-bolt-tasks` whose wrapped operation raises
prints the one-line message on stderr but returns `False`, and click exits 0:
a failed invocation with exit code 0, contradicting the claim. -/
theorem c9_counterexample :
    (generateBoltTasksCmd (.error (s2l "boom"))).exitCode = 0 ∧
    (generateBoltTasksCmd (.error (s2l "boom"))).stderrLines =
      [s2l "Error generating bolt tasks: boom"] ∧
    ¬ (generateBoltTasksCmd (.error (s2l "boom"))).exitCode ≠ 0 := by
  refine ⟨by decide, by decide, by decide⟩

/-- C9 (amended): commands whose handler calls `sys.exit(1)` — here
`add-dependency`, which in fact always fails — exit 1 with a one-line stderr
message; `generate-bolt-tasks` prints its one-line error message but returns
`False`, so it exits 0 on failure as on success: exit code 0 does not imply
the operation succeeded. -/
theorem c9_exit_codes (ts : DepStore) (a b e : List Char)
    (r : List (List Char)) :
    (addDependencyCmd ts a b).exitCode = 1 ∧
    (addDependencyCmd ts a b).stderrLines.length = 1 ∧
    (generateBoltTasksCmd (.error e)).exitCode = 0 ∧
    (generateBoltTasksCmd (.error e)).stderrLines.length = 1 ∧
    (generateBoltTasksCmd (.ok r)).exitCode = 0 ∧
    (generateBoltTasksCmd (.ok r)).stderrLines = [] := by
  refine ⟨?_, ?_, rfl, rfl, rfl, rfl⟩ <;>
    · unfold addDependencyCmd
      rcases depLookup ts a with _ | tdeps <;> rcases depLookup ts b with _ | ddeps <;>
        first
          | rfl
          | (rcases hcc : circularCheck tdeps ddeps a b <;> simp [hcc])

/-! Claim C10: `get_task` with an integer or a title. -/

/-- C10 counterexample: on a one-task store there is no position `-1` in the
insertion order, yet `get_task(-1)` returns the task (Python's negative
indexing) instead of raising `KeyError`. -/
theorem c10_counterexample :
    getTask [(s2l "A", sampleTask)] (.inl (-1)) = .ok sampleTask := rfl

/-- C10 (amended): `get_task` with a string title returns the task stored
under the title and raises `KeyError` when it is absent.  With an integer it
indexes `list(self.tasks.values())` with Python list semantics: a nonnegative
`i` below the size returns the task at position `i`; a nonnegative `i` at or
past the size raises `KeyError`; a negative `i` with `|i| <= size` returns
the task at position `size - |i|` (indexing from the back) rather than
raising; a negative `i` with `|i| > size` raises `KeyError`. -/
theorem c10_get_task (ts : Store) (i : Int) (title : List Char) :
    (∀ t, storeLookup ts title = some t → getTask ts (.inr title) = .ok t) ∧
    (storeLookup ts title = none → getTask ts (.inr title) = .error title) ∧
    (0 ≤ i → i.toNat < (storeValues ts).length →
      ∃ t, (storeValues ts)[i.toNat]? = some t ∧ getTask ts (.inl i) = .ok t) ∧
    (0 ≤ i → (storeValues ts).length ≤ i.toNat →
      getTask ts (.inl i) = .error (s2l "No task found at index")) ∧
    (i < 0 → i.natAbs ≤ (storeValues ts).length →
      ∃ t, (storeValues ts)[(storeValues ts).length - i.natAbs]? = some t ∧
        getTask ts (.inl i) = .ok t) ∧
    (i < 0 → (storeValues ts).length < i.natAbs →
      getTask ts (.inl i) = .error (s2l "No task found at index")) := by
  refine ⟨?_, ?_, ?_, ?_, ?_, ?_⟩
  · intro t ht
    simp [getTask, ht]
  · intro ht
    simp [getTask, ht]
  · intro h0 hlt
    rcases hg : (storeValues ts)[i.toNat]? with _ | t
    · rw [List.getElem?_eq_none_iff] at hg
      omega
    · exact ⟨t, rfl, by simp [getTask, pyListGet, h0, hg]⟩
  · intro h0 hge
    have hg : (storeValues ts)[i.toNat]? = none := by
      rw [List.getElem?_eq_none_iff]
      exact hge
    simp [getTask, pyListGet, h0, hg]
  · intro hneg hle
    have habs : 1 ≤ i.natAbs := by omega
    have hlt : (storeValues ts).length - i.natAbs < (storeValues ts).length := by
      omega
    rcases hg : (storeValues ts)[(storeValues ts).length - i.natAbs]? with _ | t
    · rw [List.getElem?_eq_none_iff] at hg
      omega
    · refine ⟨t, rfl, ?_⟩
      have hni : ¬ (0 : Int) ≤ i := by omega
      simp [getTask, pyListGet, hni, hle, hg]
  · intro hneg hgt
    have hni : ¬ (0 : Int) ≤ i := by omega
    have hnle : ¬ i.natAbs ≤ (storeValues ts).length := by omega
    simp [getTask, pyListGet, hni, hnle]

theorem c10_get_task_witness :
    getTask [(s2l "A", sampleTask)] (.inr (s2l "A")) = .ok sampleTask ∧
    getTask [(s2l "A", sampleTask)] (.inl 3) =
      .error (s2l "No task found at index") :=
  ⟨(c10_get_task [(s2l "A", sampleTask)] 0 (s2l "A")).1 sampleTask (by decide),
   (c10_get_task [(s2l "A", sampleTask)] 3 (s2l "A")).2.2.2.1 (by decide)
     (by decide)⟩

end PromptManagerSpec
